import Mathlib

/-!
Verification of the AutoCoder dashboard (`src/autocoder_dashboard/src/App.jsx`).

The development shallowly embeds the dashboard's data and state handling:

* `JValue` models the JSON values the dashboard stores and exchanges.
* `printVal`/`parseVal` model `JSON.stringify`/`JSON.parse` on the JSON
  fragment this application produces: integer numbers, strings with
  quote/backslash escaping, arrays, objects, and no insignificant
  whitespace.  (Floating point numbers, unicode escapes and whitespace
  skipping are outside the fragment the dashboard ever serializes.)
* `AppState` and `submitFeature` model the component state and the submit
  handler, with the network represented by an explicit `FetchOutcome`.
-/

namespace AutoCoder

/-- JSON values, the universe of data the dashboard stores in component
state and in browser storage.  Numbers are restricted to integers: the only
numbers the dashboard itself creates are `Date.now()` timestamps. -/
inductive JValue : Type where
  | null : JValue
  | bool : Bool → JValue
  | num : Int → JValue
  | str : String → JValue
  | arr : List JValue → JValue
  | obj : List (String × JValue) → JValue

/-- Decimal digit to character, via a lookup table. -/
def dChar (d : Nat) : Char :=
  ['0', '1', '2', '3', '4', '5', '6', '7', '8', '9'].getD d '0'

/-- Decimal representation of a natural number, most significant digit
first, as produced by `JSON.stringify` for nonnegative integers. -/
def natToChars (n : Nat) : List Char :=
  if n = 0 then ['0'] else (Nat.digits 10 n).reverse.map dChar

/-- Decimal representation of an integer (with a leading minus sign for
negative values), as produced by `JSON.stringify`. -/
def intToChars (i : Int) : List Char :=
  if i < 0 then '-' :: natToChars i.natAbs else natToChars i.natAbs

/-- String-body escaping performed by `JSON.stringify`: quotes and
backslashes are escaped with a backslash. -/
def escapeChars : List Char → List Char
  | [] => []
  | c :: cs =>
    if c = '"' ∨ c = '\\' then '\\' :: c :: escapeChars cs
    else c :: escapeChars cs

/-- A JSON string literal: quoted, escaped body. -/
def strLit (s : String) : List Char :=
  '"' :: (escapeChars s.data ++ ['"'])

/-- The keyword `null` as characters. -/
def nullChars : List Char := ['n', 'u', 'l', 'l']

/-- The keyword `true` as characters. -/
def trueChars : List Char := ['t', 'r', 'u', 'e']

/-- The keyword `false` as characters. -/
def falseChars : List Char := ['f', 'a', 'l', 's', 'e']

mutual

/-- `JSON.stringify` (no indentation argument), character by character. -/
def printVal : JValue → List Char
  | .null => nullChars
  | .bool true => trueChars
  | .bool false => falseChars
  | .num i => intToChars i
  | .str s => strLit s
  | .arr l => '[' :: (printItems l ++ [']'])
  | .obj m => '{' :: (printMembers m ++ ['}'])

/-- Comma-separated array elements. -/
def printItems : List JValue → List Char
  | [] => []
  | [v] => printVal v
  | v :: w :: rest => printVal v ++ ',' :: printItems (w :: rest)

/-- Comma-separated object members, each `"key":value`. -/
def printMembers : List (String × JValue) → List Char
  | [] => []
  | [(k, v)] => strLit k ++ ':' :: printVal v
  | (k, v) :: kv :: rest => strLit k ++ ':' :: printVal v ++ ',' :: printMembers (kv :: rest)

end

/-- Is `c` a decimal digit? -/
def isDigitC (c : Char) : Bool :=
  (48 ≤ c.toNat) && (c.toNat ≤ 57)

/-- Accumulate decimal digits into a natural number. -/
def foldDigits (a : Nat) (c : Char) : Nat :=
  10 * a + (c.toNat - 48)

/-- Parse a nonempty run of decimal digits from the head of the input. -/
def parseNatChars (l : List Char) : Option (Nat × List Char) :=
  let ds := l.takeWhile isDigitC
  if ds.isEmpty then none
  else some (ds.foldl foldDigits 0, l.dropWhile isDigitC)

/-- Parse an optionally negated decimal integer from the head of the input. -/
def parseIntChars (l : List Char) : Option (Int × List Char) :=
  match l with
  | [] => none
  | c :: rest =>
    if c = '-' then (parseNatChars rest).map (fun p => (-(p.1 : Int), p.2))
    else (parseNatChars (c :: rest)).map (fun p => ((p.1 : Int), p.2))

/-- Parse a JSON string body up to (and consuming) the closing quote,
undoing the escaping of `escapeChars`. -/
def parseStrBody : List Char → Option (List Char × List Char)
  | [] => none
  | c :: rest =>
    if c = '"' then some ([], rest)
    else if c = '\\' then
      match rest with
      | [] => none
      | d :: rest₁ =>
        if d = '"' ∨ d = '\\' then
          (parseStrBody rest₁).map (fun p => (d :: p.1, p.2))
        else none
    else (parseStrBody rest).map (fun p => (c :: p.1, p.2))

mutual

/-- Fuelled JSON value parser (one fuel unit per recursive step).
Models `JSON.parse` on the fragment described in the header. -/
def parseVal : Nat → List Char → Option (JValue × List Char)
  | 0, _ => none
  | _ + 1, [] => none
  | fuel + 1, c :: rest =>
    if c = '"' then (parseStrBody rest).map (fun p => (.str (String.mk p.1), p.2))
    else if c = '[' then
      if rest.head? = some ']' then some (.arr [], rest.tail)
      else (parseItemsAux fuel rest).map (fun p => (.arr p.1, p.2))
    else if c = '{' then
      if rest.head? = some '}' then some (.obj [], rest.tail)
      else (parseMembersAux fuel rest).map (fun p => (.obj p.1, p.2))
    else if c = 'n' then
      match rest with
      | 'u' :: 'l' :: 'l' :: rest₁ => some (.null, rest₁)
      | _ => none
    else if c = 't' then
      match rest with
      | 'r' :: 'u' :: 'e' :: rest₁ => some (.bool true, rest₁)
      | _ => none
    else if c = 'f' then
      match rest with
      | 'a' :: 'l' :: 's' :: 'e' :: rest₁ => some (.bool false, rest₁)
      | _ => none
    else (parseIntChars (c :: rest)).map (fun p => (.num p.1, p.2))

/-- Parse the elements of a nonempty array, consuming the closing `]`. -/
def parseItemsAux : Nat → List Char → Option (List JValue × List Char)
  | 0, _ => none
  | fuel + 1, input =>
    match parseVal fuel input with
    | none => none
    | some (v, rest) =>
      if rest.head? = some ',' then
        (parseItemsAux fuel rest.tail).map (fun p => (v :: p.1, p.2))
      else if rest.head? = some ']' then some ([v], rest.tail)
      else none

/-- Parse the members of a nonempty object, consuming the closing `}`. -/
def parseMembersAux : Nat → List Char → Option (List (String × JValue) × List Char)
  | 0, _ => none
  | fuel + 1, input =>
    if input.head? = some '"' then
      match parseStrBody input.tail with
      | none => none
      | some (key, rest₁) =>
        if rest₁.head? = some ':' then
          match parseVal fuel rest₁.tail with
          | none => none
          | some (v, rest₃) =>
            if rest₃.head? = some ',' then
              (parseMembersAux fuel rest₃.tail).map (fun p => ((String.mk key, v) :: p.1, p.2))
            else if rest₃.head? = some '}' then some ([(String.mk key, v)], rest₃.tail)
            else none
        else none
    else none

end

mutual

/-- Fuel needed by `parseVal` to parse the output of `printVal`. -/
def sizeV : JValue → Nat
  | .null => 1
  | .bool _ => 1
  | .num _ => 1
  | .str _ => 1
  | .arr l => 1 + sizeL l
  | .obj m => 1 + sizeM m

/-- Fuel needed by `parseItemsAux` to parse the output of `printItems`. -/
def sizeL : List JValue → Nat
  | [] => 0
  | v :: rest => 1 + sizeV v + sizeL rest

/-- Fuel needed by `parseMembersAux` to parse the output of `printMembers`. -/
def sizeM : List (String × JValue) → Nat
  | [] => 0
  | (_, v) :: rest => 1 + sizeV v + sizeM rest

end

theorem sizeV_pos (v : JValue) : 1 ≤ sizeV v := by
  cases v <;> simp [sizeV]

/-- The first character of the remaining input is not a digit (so a digit
run just before it ends there). -/
def headNotDigit (l : List Char) : Bool :=
  match l with
  | [] => true
  | c :: _ => !(isDigitC c)

theorem dChar_isDigit {d : Nat} (hd : d < 10) : isDigitC (dChar d) = true := by
  interval_cases d <;> decide

theorem foldDigits_dChar (a : Nat) {d : Nat} (hd : d < 10) :
    foldDigits a (dChar d) = 10 * a + d := by
  interval_cases d <;> simp [foldDigits, dChar]

theorem natToChars_ne_nil (n : Nat) : natToChars n ≠ [] := by
  unfold natToChars
  split
  · simp
  · next h =>
    have hd : Nat.digits 10 n ≠ [] := Nat.digits_ne_nil_iff_ne_zero.mpr h
    simp [hd]

theorem natToChars_all_digits (n : Nat) : ∀ c ∈ natToChars n, isDigitC c = true := by
  intro c hc
  unfold natToChars at hc
  split at hc
  · simp at hc
    subst hc
    decide
  · simp at hc
    obtain ⟨d, hd, rfl⟩ := hc
    exact dChar_isDigit (Nat.digits_lt_base (by norm_num) hd)

theorem takeWhile_append_all {p : Char → Bool} {xs ys : List Char}
    (h1 : ∀ c ∈ xs, p c = true)
    (h3 : ∀ c t, ys = c :: t → p c = false) :
    (xs ++ ys).takeWhile p = xs ∧ (xs ++ ys).dropWhile p = ys := by
  induction xs with
  | nil =>
    simp only [List.nil_append]
    cases ys with
    | nil => simp
    | cons c t =>
      simp [List.takeWhile, List.dropWhile, h3 c t rfl]
  | cons x xs ih =>
    have hx : p x = true := h1 x (by simp)
    have ih' := ih (fun c hc => h1 c (by simp [hc]))
    simp [List.takeWhile, List.dropWhile, hx, ih'.1, ih'.2]

/-- Accumulating big-endian digits with `foldDigits` recovers the number. -/
theorem foldl_digits_eq (L : List Nat) (h : ∀ d ∈ L, d < 10) (acc : Nat) :
    (L.reverse.map dChar).foldl foldDigits acc = acc * 10 ^ L.length + Nat.ofDigits 10 L := by
  induction L generalizing acc with
  | nil => simp [Nat.ofDigits]
  | cons d L ih =>
    have hd : d < 10 := h d (by simp)
    have hL : ∀ e ∈ L, e < 10 := fun e he => h e (by simp [he])
    simp only [List.reverse_cons, List.map_append, List.map_cons, List.map_nil,
      List.foldl_append, List.foldl_cons, List.foldl_nil]
    rw [ih hL acc, foldDigits_dChar _ hd, Nat.ofDigits_cons]
    simp only [List.length_cons, pow_succ]
    ring

theorem foldl_natToChars (n : Nat) : (natToChars n).foldl foldDigits 0 = n := by
  unfold natToChars
  split
  · next h => subst h; decide
  · next h =>
    have := foldl_digits_eq (Nat.digits 10 n) (fun d hd => Nat.digits_lt_base (by norm_num) hd) 0
    rw [this, Nat.ofDigits_digits]
    simp

theorem parseNatChars_natToChars (n : Nat) (rest : List Char)
    (hrest : headNotDigit rest = true) :
    parseNatChars (natToChars n ++ rest) = some (n, rest) := by
  have h3 : ∀ c t, rest = c :: t → isDigitC c = false := by
    intro c t hct
    subst hct
    simpa [headNotDigit] using hrest
  have htd := takeWhile_append_all (p := isDigitC) (natToChars_all_digits n) h3
  unfold parseNatChars
  rw [htd.1, htd.2]
  simp [natToChars_ne_nil n, List.isEmpty_iff, foldl_natToChars]

theorem parseIntChars_intToChars (i : Int) (rest : List Char)
    (hrest : headNotDigit rest = true) :
    parseIntChars (intToChars i ++ rest) = some (i, rest) := by
  unfold intToChars
  split
  · next hneg =>
    simp only [List.cons_append]
    unfold parseIntChars
    simp only [if_pos rfl]
    rw [parseNatChars_natToChars _ _ hrest]
    simp only [Option.map_some']
    rw [Int.ofNat_natAbs_of_nonpos (le_of_lt hneg), neg_neg]
    simp
  · next hpos =>
    obtain ⟨c, t, hct⟩ : ∃ c t, natToChars i.natAbs = c :: t := by
      cases h : natToChars i.natAbs with
      | nil => exact absurd h (natToChars_ne_nil _)
      | cons c t => exact ⟨c, t, rfl⟩
    have hc : isDigitC c = true := by
      refine natToChars_all_digits i.natAbs c ?_
      simp [hct]
    have hcne : c ≠ '-' := by
      intro h
      subst h
      exact absurd hc (by decide)
    rw [hct]
    simp only [List.cons_append, parseIntChars]
    rw [if_neg hcne, ← List.cons_append, ← hct, parseNatChars_natToChars _ _ hrest]
    simp only [Option.map_some']
    rw [Int.natAbs_of_nonneg (by omega)]

/-- A parsed string body is exactly an escaped body up to the closing quote. -/
theorem parseStrBody_escape (s : List Char) (rest : List Char) :
    parseStrBody (escapeChars s ++ '"' :: rest) = some (s, rest) := by
  induction s with
  | nil =>
    simp only [escapeChars, List.nil_append]
    unfold parseStrBody
    simp
  | cons a s ih =>
    by_cases ha : a = '"' ∨ a = '\\'
    · have h1 : a ≠ '"' → a = '\\' := by tauto
      simp only [escapeChars, if_pos ha, List.cons_append]
      unfold parseStrBody
      rw [if_neg (by decide), if_pos rfl]
      simp [ha, ih]
    · have h1 : a ≠ '"' := by tauto
      have h2 : a ≠ '\\' := by tauto
      simp only [escapeChars, if_neg ha, List.cons_append]
      unfold parseStrBody
      rw [if_neg h1, if_neg h2, ih]
      simp

theorem strMk_data (s : String) : String.mk s.data = s := rfl

theorem headNotDigit_cons (c : Char) (t : List Char) (h : isDigitC c = false) :
    headNotDigit (c :: t) = true := by
  simp [headNotDigit, h]

theorem isDigitC_ne {c : Char} (h : isDigitC c = true) :
    c ≠ '"' ∧ c ≠ '[' ∧ c ≠ '{' ∧ c ≠ 'n' ∧ c ≠ 't' ∧ c ≠ 'f' ∧ c ≠ ']' ∧ c ≠ '}' := by
  refine ⟨?_, ?_, ?_, ?_, ?_, ?_, ?_, ?_⟩ <;> (rintro rfl; exact absurd h (by decide))

theorem intToChars_head (i : Int) :
    ∃ c t, intToChars i = c :: t ∧ (c = '-' ∨ isDigitC c = true) := by
  unfold intToChars
  split
  · exact ⟨'-', _, rfl, Or.inl rfl⟩
  · cases h : natToChars i.natAbs with
    | nil => exact absurd h (natToChars_ne_nil _)
    | cons c t =>
      refine ⟨c, t, rfl, Or.inr ?_⟩
      exact natToChars_all_digits i.natAbs c (by simp [h])

/-- The parser equation for a printed number: its head routes to the
integer branch. -/
theorem parseVal_print_num (fuel : Nat) (i : Int) (rest : List Char)
    (hrest : headNotDigit rest = true) :
    parseVal (fuel + 1) (intToChars i ++ rest) = some (.num i, rest) := by
  obtain ⟨c, t, hct, hc⟩ := intToChars_head i
  have hne : c ≠ '"' ∧ c ≠ '[' ∧ c ≠ '{' ∧ c ≠ 'n' ∧ c ≠ 't' ∧ c ≠ 'f' := by
    rcases hc with rfl | hd
    · exact ⟨by decide, by decide, by decide, by decide, by decide, by decide⟩
    · obtain ⟨h1, h2, h3, h4, h5, h6, _, _⟩ := isDigitC_ne hd
      exact ⟨h1, h2, h3, h4, h5, h6⟩
  rw [hct, List.cons_append]
  unfold parseVal
  rw [if_neg hne.1, if_neg hne.2.1, if_neg hne.2.2.1, if_neg hne.2.2.2.1,
    if_neg hne.2.2.2.2.1, if_neg hne.2.2.2.2.2, ← List.cons_append, ← hct,
    parseIntChars_intToChars i rest hrest]
  rfl

/-- A nonempty printed item list starts with a printable head character,
never with the characters that close or separate composites. -/
theorem printVal_head (v : JValue) :
    ∃ c t, printVal v = c :: t ∧ c ≠ ']' ∧ c ≠ '}' := by
  cases v with
  | null => exact ⟨'n', ['u', 'l', 'l'], by simp [printVal, nullChars], by decide, by decide⟩
  | bool b =>
    cases b with
    | true => exact ⟨'t', ['r', 'u', 'e'], by simp [printVal, trueChars], by decide, by decide⟩
    | false =>
      exact ⟨'f', ['a', 'l', 's', 'e'], by simp [printVal, falseChars], by decide, by decide⟩
  | num i =>
    obtain ⟨c, t, hct, hc⟩ := intToChars_head i
    refine ⟨c, t, by simp [printVal, hct], ?_, ?_⟩
    · rcases hc with rfl | hd
      · decide
      · exact (isDigitC_ne hd).2.2.2.2.2.2.1
    · rcases hc with rfl | hd
      · decide
      · exact (isDigitC_ne hd).2.2.2.2.2.2.2
  | str s =>
    exact ⟨'"', escapeChars s.data ++ ['"'], by simp [printVal, strLit], by decide, by decide⟩
  | arr l => exact ⟨'[', printItems l ++ [']'], by simp [printVal], by decide, by decide⟩
  | obj m => exact ⟨'{', printMembers m ++ ['}'], by simp [printVal], by decide, by decide⟩

theorem printItems_cons_head (v : JValue) (l : List JValue) :
    ∃ c t, printItems (v :: l) = c :: t ∧ c ≠ ']' := by
  obtain ⟨c, t, hct, h1, _⟩ := printVal_head v
  cases l with
  | nil => exact ⟨c, t, by simp [printItems, hct], h1⟩
  | cons w l => exact ⟨c, t ++ ',' :: printItems (w :: l), by simp [printItems, hct], h1⟩

theorem printMembers_cons_head (kv : String × JValue) (m : List (String × JValue)) :
    ∃ t, printMembers (kv :: m) = '"' :: t := by
  obtain ⟨k, v⟩ := kv
  cases m with
  | nil =>
    exact ⟨escapeChars k.data ++ '"' :: ':' :: printVal v, by simp [printMembers, strLit]⟩
  | cons kw m =>
    exact ⟨escapeChars k.data ++ '"' :: ':' :: (printVal v ++ ',' :: printMembers (kw :: m)),
      by simp [printMembers, strLit]⟩

/-- Parsing is a left inverse of printing, for every sufficient fuel:
the printed value is consumed exactly, leaving the given remainder. -/
theorem parse_print_main (fuel : Nat) :
    (∀ v rest, sizeV v ≤ fuel → headNotDigit rest = true →
      parseVal fuel (printVal v ++ rest) = some (v, rest)) ∧
    (∀ l rest, l ≠ [] → sizeL l ≤ fuel →
      parseItemsAux fuel (printItems l ++ ']' :: rest) = some (l, rest)) ∧
    (∀ m rest, m ≠ [] → sizeM m ≤ fuel →
      parseMembersAux fuel (printMembers m ++ '}' :: rest) = some (m, rest)) := by
  induction fuel with
  | zero =>
    refine ⟨?_, ?_, ?_⟩
    · intro v rest hsize _
      exact absurd hsize (by have := sizeV_pos v; omega)
    · intro l rest hne hsize
      cases l with
      | nil => exact absurd rfl hne
      | cons v l => simp [sizeL] at hsize
    · intro m rest hne hsize
      cases m with
      | nil => exact absurd rfl hne
      | cons kv m =>
        obtain ⟨k, v⟩ := kv
        simp [sizeM] at hsize
  | succ fuel ih =>
    obtain ⟨ihV, ihL, ihM⟩ := ih
    refine ⟨?_, ?_, ?_⟩
    · intro v rest hsize hrest
      cases v with
      | null =>
        simp only [printVal, nullChars, List.cons_append, List.nil_append]
        unfold parseVal
        simp
      | bool b =>
        cases b <;>
          (simp only [printVal, trueChars, falseChars, List.cons_append, List.nil_append]
           unfold parseVal
           simp)
      | num i =>
        simp only [printVal]
        exact parseVal_print_num fuel i rest hrest
      | str s =>
        simp only [printVal, strLit, List.cons_append, List.append_assoc,
          List.singleton_append]
        unfold parseVal
        rw [if_pos rfl, parseStrBody_escape]
        simp [strMk_data]
      | arr l =>
        simp only [printVal, List.cons_append, List.append_assoc, List.singleton_append,
          List.nil_append]
        unfold parseVal
        rw [if_neg (by decide), if_pos rfl]
        cases l with
        | nil =>
          simp [printItems]
        | cons v l =>
          obtain ⟨c, t, hct, hc⟩ := printItems_cons_head v l
          have hsl : sizeL (v :: l) ≤ fuel := by
            simp only [sizeV] at hsize
            omega
          have hih := ihL (v :: l) rest (by simp) hsl
          rw [hct, List.cons_append] at hih
          rw [hct]
          simp [hih, hc]
      | obj m =>
        simp only [printVal, List.cons_append, List.append_assoc, List.singleton_append,
          List.nil_append]
        unfold parseVal
        rw [if_neg (by decide), if_neg (by decide), if_pos rfl]
        cases m with
        | nil =>
          simp [printMembers]
        | cons kv m =>
          obtain ⟨t, hct⟩ := printMembers_cons_head kv m
          have hsm : sizeM (kv :: m) ≤ fuel := by
            simp only [sizeV] at hsize
            omega
          have hih := ihM (kv :: m) rest (by simp) hsm
          rw [hct, List.cons_append] at hih
          rw [hct]
          simp [hih]
    · intro l rest hne hsize
      cases l with
      | nil => exact absurd rfl hne
      | cons v l =>
        have hv : sizeV v ≤ fuel := by
          simp only [sizeL] at hsize
          omega
        cases l with
        | nil =>
          simp only [printItems]
          unfold parseItemsAux
          rw [ihV v (']' :: rest) hv (headNotDigit_cons _ _ (by decide))]
          simp
        | cons w l =>
          have hwl : sizeL (w :: l) ≤ fuel := by
            simp only [sizeL] at hsize
            simp only [sizeL]
            omega
          have hih := ihL (w :: l) rest (by simp) hwl
          simp only [printItems, List.append_assoc, List.cons_append]
          unfold parseItemsAux
          rw [ihV v (',' :: (printItems (w :: l) ++ ']' :: rest)) hv
            (headNotDigit_cons _ _ (by decide))]
          simp [hih]
    · intro m rest hne hsize
      cases m with
      | nil => exact absurd rfl hne
      | cons kv m =>
        obtain ⟨k, v⟩ := kv
        have hv : sizeV v ≤ fuel := by
          simp only [sizeM] at hsize
          omega
        cases m with
        | nil =>
          have hihV := ihV v ('}' :: rest) hv (headNotDigit_cons _ _ (by decide))
          simp only [printMembers, strLit, List.cons_append, List.append_assoc,
            List.singleton_append, List.nil_append]
          unfold parseMembersAux
          simp [parseStrBody_escape, hihV, strMk_data]
        | cons kw m =>
          have hkwm : sizeM (kw :: m) ≤ fuel := by
            obtain ⟨k2, v2⟩ := kw
            simp only [sizeM] at hsize
            simp only [sizeM]
            omega
          have hihV := ihV v (',' :: (printMembers (kw :: m) ++ '}' :: rest)) hv
            (headNotDigit_cons _ _ (by decide))
          have hihM := ihM (kw :: m) rest (by simp) hkwm
          simp only [printMembers, strLit, List.cons_append, List.append_assoc,
            List.singleton_append, List.nil_append]
          unfold parseMembersAux
          simp [parseStrBody_escape, hihV, hihM, strMk_data]

mutual

/-- The fuel a printed value needs is covered by its printed length. -/
theorem sizeV_le_printLen (v : JValue) : sizeV v ≤ (printVal v).length := by
  cases v with
  | null => simp [sizeV, printVal, nullChars]
  | bool b => cases b <;> simp [sizeV, printVal, trueChars, falseChars]
  | num i =>
    have h : intToChars i ≠ [] := by
      unfold intToChars
      split
      · simp
      · exact natToChars_ne_nil _
    have : 1 ≤ (intToChars i).length := by
      cases h2 : intToChars i with
      | nil => exact absurd h2 h
      | cons c t => simp
    simpa [sizeV, printVal] using this
  | str s => simp [sizeV, printVal, strLit]
  | arr l =>
    have := sizeL_le_printLen l
    simp only [sizeV, printVal, List.length_cons, List.length_append]
    simp
    omega
  | obj m =>
    have := sizeM_le_printLen m
    simp only [sizeV, printVal, List.length_cons, List.length_append]
    simp
    omega

theorem sizeL_le_printLen (l : List JValue) : sizeL l ≤ (printItems l).length + 1 := by
  cases l with
  | nil => simp [sizeL]
  | cons v l =>
    cases l with
    | nil =>
      have := sizeV_le_printLen v
      simp only [sizeL, printItems]
      omega
    | cons w l =>
      have h1 := sizeV_le_printLen v
      have h2 := sizeL_le_printLen (w :: l)
      simp only [sizeL] at h2 ⊢
      simp only [printItems, List.length_append, List.length_cons]
      omega

theorem sizeM_le_printLen (m : List (String × JValue)) :
    sizeM m ≤ (printMembers m).length + 1 := by
  cases m with
  | nil => simp [sizeM]
  | cons kv m =>
    obtain ⟨k, v⟩ := kv
    cases m with
    | nil =>
      have := sizeV_le_printLen v
      simp only [sizeM, printMembers]
      simp only [List.length_append, List.length_cons]
      omega
    | cons kw m =>
      have h1 := sizeV_le_printLen v
      have h2 := sizeM_le_printLen (kw :: m)
      obtain ⟨k2, v2⟩ := kw
      simp only [sizeM] at h2 ⊢
      simp only [printMembers, List.length_append, List.length_cons] at h2 ⊢
      omega

end

/-- Model of `JSON.stringify(v)`. -/
def jsonStringify (v : JValue) : String :=
  String.mk (printVal v)

/-- Model of `JSON.parse(s)`: `none` when `JSON.parse` would throw.  The
fuel `s.data.length + 1` dominates the recursion depth of any successful
parse of `s`. -/
def jsonParse (s : String) : Option JValue :=
  match parseVal (s.data.length + 1) s.data with
  | some (v, []) => some v
  | _ => none

/-- `JSON.parse` inverts `JSON.stringify` on every JSON value. -/
theorem jsonParse_stringify (v : JValue) : jsonParse (jsonStringify v) = some v := by
  have hfuel : sizeV v ≤ (printVal v).length + 1 :=
    le_trans (sizeV_le_printLen v) (Nat.le_succ _)
  have h := (parse_print_main ((printVal v).length + 1)).1 v [] hfuel rfl
  rw [List.append_nil] at h
  unfold jsonParse jsonStringify
  simp only [h]

/-! ## Configuration resolution (`getDefaultApiBase`, lines 29-52, 63-69) -/

/-- Outcome of reading one configuration source inside a `try` block:
the lookup either throws, or yields no value (`none`, the source is
absent/undefined), or yields a string.  JavaScript truthiness makes an
empty string behave like an absent value. -/
inductive Lookup : Type where
  | throws : Lookup
  | ok : Option String → Lookup
  deriving DecidableEq

/-- One failure-tolerant truthiness-guarded source read: the value is
produced only when the lookup does not throw and yields a truthy (nonempty)
string, mirroring `try { if (x) return x } catch (e) {}`. -/
def tryLookup : Lookup → Option String
  | .throws => none
  | .ok none => none
  | .ok (some s) => if s = "" then none else some s

/-- `getDefaultApiBase` (lines 29-50): `window.__APP_API_BASE`, then
`globalThis.process.env.VITE_API_BASE`, then the fixed local default. -/
def getDefaultApiBase (winGlobal envVar : Lookup) : String :=
  match tryLookup winGlobal with
  | some s => s
  | none =>
    match tryLookup envVar with
    | some s => s
    | none => "http://localhost:9000"

/-- Initial `apiBase` state (lines 63-69):
`localStorage.getItem('ac_api_base') || DEFAULT_API_BASE`, with the whole
read wrapped in `try`/`catch` falling back to the default. -/
def initApiBase (stored : Lookup) (dflt : String) : String :=
  match stored with
  | .throws => dflt
  | .ok none => dflt
  | .ok (some s) => if s = "" then dflt else s

/-! ## Component state and the submission handler -/

/-- The component state: one field per `useState` hook of `App`.
`jobs` holds JSON values, as JavaScript does; `error` likewise (a string
error is a JSON string value). -/
structure AppState : Type where
  apiBase : String
  apiBaseInput : String
  title : String
  description : String
  loading : Bool
  response : Option JValue
  error : Option JValue
  jobs : List JValue
  apiToken : String

/-- The state right after mount (lines 63-78), before the `ac_jobs`
load effect runs: empty form, no jobs, `apiBase` already resolved. -/
def initState (base : String) : AppState :=
  { apiBase := base, apiBaseInput := base, title := "", description := "",
    loading := false, response := none, error := none, jobs := [], apiToken := "" }

/-- JavaScript `String.prototype.includes`: is `sub` a contiguous
substring? -/
def charsContain (sub : List Char) : List Char → Bool
  | [] => sub.isPrefixOf ([] : List Char)
  | c :: rest => sub.isPrefixOf (c :: rest) || charsContain sub rest

/-- `s.includes(sub)` on strings. -/
def strIncludes (s sub : String) : Bool :=
  charsContain sub.data s.data

/-- What one `fetch` of the submission resolves to: a thrown network
error (with its stringified message), or a response with an HTTP status,
an optional `content-type` header, and a body text. -/
inductive FetchOutcome : Type where
  | netError (msg : String) : FetchOutcome
  | response (status : Nat) (contentType : Option String) (body : String) : FetchOutcome

/-- The ambient data of one submission: the fetch outcome, `Date.now()`,
and `new Date().toISOString()`. -/
structure SubmitEvent : Type where
  outcome : FetchOutcome
  now : Nat
  nowIso : String

/-- Body parsing of `submitFeature` (lines 119-130): when the
`content-type` header (defaulted to the empty string) declares JSON the
body goes through `res.json()` (`none` models the parse throwing);
otherwise the text is parsed as JSON if possible, falling back to
`{text: <raw body>}`. -/
def respBodyData (contentType : Option String) (body : String) : Option JValue :=
  if strIncludes (contentType.getD "") "application/json" then jsonParse body
  else some ((jsonParse body).getD (.obj [("text", .str body)]))

/-- The job object constructed on a successful submission (line 135). -/
def mkJob (now : Nat) (title : String) (createdAt : String) (result : JValue) : JValue :=
  .obj [("id", .num now), ("title", .str title), ("created_at", .str createdAt),
    ("result", result)]

/-- Model of `String(err)` for the exception thrown when `res.json()`
fails on a JSON-typed body; the exact message text is engine-defined and
immaterial, only that the error state becomes that string. -/
def jsonErrMsg : String :=
  "SyntaxError: Unexpected token in JSON"

/-- The `submitFeature` handler (lines 101-146) as a state transition.
It clears `response`/`error`, then on a thrown fetch stores the
stringified error; on a response it parses the body, stores it as the
error for a non-2xx status (`res.ok` is `200 ≤ status ≤ 299`), and on
success prepends the new job (truncating to 30), stores the body as the
response and clears the form fields.  `loading` ends `false` on every
path (the `finally` block). -/
def submitFeature (st : AppState) (ev : SubmitEvent) : AppState :=
  let st₁ := { st with loading := true, response := none, error := none }
  match ev.outcome with
  | .netError msg => { st₁ with error := some (.str msg), loading := false }
  | .response status contentType body =>
    match respBodyData contentType body with
    | none => { st₁ with error := some (.str jsonErrMsg), loading := false }
    | some data =>
      if 200 ≤ status ∧ status ≤ 299 then
        { st₁ with
          jobs := (mkJob ev.now st.title ev.nowIso data :: st.jobs).take 30,
          response := some data,
          title := "", description := "",
          loading := false }
      else { st₁ with error := some data, loading := false }

/-- A sequence of submissions, applied left to right. -/
def submitMany (st : AppState) (evs : List SubmitEvent) : AppState :=
  evs.foldl submitFeature st

/-- Does this event take the success path of `submitFeature`? -/
def isSuccessEv (ev : SubmitEvent) : Bool :=
  match ev.outcome with
  | .netError _ => false
  | .response status contentType body =>
    (200 ≤ status && status ≤ 299) && (respBodyData contentType body).isSome

/-- The `Clear` button handler (line 181): reset the form fields and the
result/error display. -/
def clearAction (st : AppState) : AppState :=
  { st with title := "", description := "", response := none, error := none }

/-! ## Persistence of the job list (`ac_jobs`, lines 80-93) -/

/-- The persist effect (lines 89-93): `JSON.stringify(jobs)` written to
the `ac_jobs` key. -/
def persistJobs (jobs : List JValue) : String :=
  jsonStringify (.arr jobs)

/-- The startup load effect (lines 80-87): read `ac_jobs`; a falsy
(absent or empty) value or a parse failure is ignored.  A stored value
parsing to a JSON array replaces the job list wholesale.  (A stored
value parsing to a JSON non-array would become a non-list `jobs` in
JavaScript; such states are not representable in the typed state and the
claims only concern stored arrays.) -/
def loadJobsEffect (stored : Option String) (st : AppState) : AppState :=
  match stored with
  | none => st
  | some s =>
    if s = "" then st
    else
      match jsonParse s with
      | some (.arr l) => { st with jobs := l }
      | _ => st

/-- The `id` field of a job object, when it is a JSON integer (the shape
`submitFeature` creates). -/
def jobId (j : JValue) : Option Int :=
  match j with
  | .obj fields =>
    match fields.lookup "id" with
    | some (.num n) => some n
    | _ => none
  | _ => none

/-- The endpoint computation of line 112:
`apiBase.replace(/\/$/, '')` (the regex removes one trailing slash)
followed by `'/feature_request'`. -/
def stripTrailingSlash (s : String) : String :=
  String.mk (if s.data.getLast? = some '/' then s.data.dropLast else s.data)

/-- The URL `submitFeature` POSTs to. -/
def featureEndpoint (base : String) : String :=
  stripTrailingSlash base ++ "/feature_request"

/-! ## Helper lemmas about the submission transition -/

/-- On the success path, the new job list is the new job prepended to the
old list, truncated to 30 entries. -/
theorem submit_success_jobs (st : AppState) (ev : SubmitEvent)
    (h : isSuccessEv ev = true) :
    ∃ data, (submitFeature st ev).jobs
      = (mkJob ev.now st.title ev.nowIso data :: st.jobs).take 30 := by
  obtain ⟨outcome, now, nowIso⟩ := ev
  cases outcome with
  | netError msg => simp [isSuccessEv] at h
  | response status contentType body =>
    simp only [isSuccessEv, Bool.and_eq_true, decide_eq_true_eq] at h
    obtain ⟨⟨h1, h2⟩, h3⟩ := h
    obtain ⟨data, hd⟩ := Option.isSome_iff_exists.mp h3
    refine ⟨data, ?_⟩
    simp [submitFeature, hd, h1, h2]

/-- A successful submission leaves at most 30 jobs. -/
theorem submit_jobs_len (st : AppState) (ev : SubmitEvent)
    (h : isSuccessEv ev = true) : (submitFeature st ev).jobs.length ≤ 30 := by
  obtain ⟨data, hjobs⟩ := submit_success_jobs st ev h
  rw [hjobs]
  simp [List.length_take]

theorem stringMk_ne_empty (c : Char) (t : List Char) : String.mk (c :: t) ≠ "" := by
  intro h
  exact List.noConfusion (congrArg String.data h)

theorem persistJobs_ne_empty (jobs : List JValue) : persistJobs jobs ≠ "" := by
  have h : printVal (.arr jobs) = '[' :: (printItems jobs ++ [']']) := by
    simp [printVal]
  unfold persistJobs jsonStringify
  rw [h]
  exact stringMk_ne_empty _ _

theorem jobId_mkJob (now : Nat) (title createdAt : String) (result : JValue) :
    jobId (mkJob now title createdAt result) = some (now : Int) := rfl

/-! ## The claims -/

/-- C1: for every sequence of successful submissions starting from any job
list, the job list after each submission retains at most 30 entries and is
ordered most-recent-first: the newly created job is at the head, previous
entries follow in their prior order, and entries beyond the 30th are
evicted.  The first conjunct gives the exact shape of one step
(`new :: previous`, truncated to 30); the second bounds the length along
any nonempty all-successful sequence. -/
theorem claim_C1 :
    (∀ st ev, isSuccessEv ev = true →
      ∃ data, (submitFeature st ev).jobs
        = (mkJob ev.now st.title ev.nowIso data :: st.jobs).take 30) ∧
    (∀ st evs, evs ≠ [] → (∀ e ∈ evs, isSuccessEv e = true) →
      (submitMany st evs).jobs.length ≤ 30) := by
  refine ⟨submit_success_jobs, ?_⟩
  intro st evs
  induction evs generalizing st with
  | nil => intro h; exact absurd rfl h
  | cons e evs ih =>
    intro _ hall
    cases evs with
    | nil =>
      simpa [submitMany] using
        submit_jobs_len st e (hall e (by simp))
    | cons f evs =>
      have h2 : submitMany st (e :: f :: evs) = submitMany (submitFeature st e) (f :: evs) := by
        simp [submitMany]
      rw [h2]
      exact ih (submitFeature st e) (by simp) (fun x hx => hall x (by simp [hx]))

/-- C1 witness: one concrete successful submission from the fresh state. -/
theorem claim_C1_witness :
    (submitMany (initState "http://localhost:9000")
      [⟨.response 200 none "{}", 5, "2026-01-01T00:00:00.000Z"⟩]).jobs.length ≤ 30 :=
  claim_C1.2 (initState "http://localhost:9000")
    [⟨.response 200 none "{}", 5, "2026-01-01T00:00:00.000Z"⟩]
    (by simp)
    (by intro e he; simp at he; subst he; rfl)

/-- The literal statement of claim C2: every failed submission (thrown
fetch or non-2xx status) leaves the job list, title and description
unchanged, ends with `loading` false, and stores in the error state the
stringified exception (network case) or the parsed body (non-2xx case). -/
def claimC2Prop : Prop :=
  ∀ st ev,
    (match ev.outcome with
     | .netError _ => True
     | .response status _ _ => ¬(200 ≤ status ∧ status ≤ 299)) →
    ((submitFeature st ev).jobs = st.jobs ∧
     (submitFeature st ev).title = st.title ∧
     (submitFeature st ev).description = st.description ∧
     (submitFeature st ev).loading = false ∧
     (match ev.outcome with
      | .netError msg => (submitFeature st ev).error = some (.str msg)
      | .response _ contentType body =>
        ∃ d, respBodyData contentType body = some d ∧ (submitFeature st ev).error = some d))

/-- C2 counterexample: a 500 response that declares `application/json`
but carries an unparseable body.  `res.json()` throws, so the error state
holds a stringified exception, not a parsed body (no parsed body exists). -/
theorem claim_C2_counterexample : ¬ claimC2Prop := by
  intro h
  have h2 := h (initState "b") ⟨.response 500 (some "application/json") "oops", 0, "t"⟩
    (by intro hc; omega)
  obtain ⟨-, -, -, -, h5⟩ := h2
  obtain ⟨d, hd, -⟩ := h5
  rw [show respBodyData (some "application/json") "oops" = none from rfl] at hd
  exact Option.noConfusion hd

/-- C2 amended: every failed submission (thrown fetch or non-2xx status)
leaves the job list, title and description unchanged and ends with
`loading` false; the error state holds the stringified exception in the
network case, and in the non-2xx case holds the parsed body whenever the
body parse yields one (when the response declares JSON and the body is
unparseable, it instead holds the stringified `res.json()` exception). -/
theorem claim_C2_amended :
    ∀ st ev,
      (match ev.outcome with
       | .netError _ => True
       | .response status _ _ => ¬(200 ≤ status ∧ status ≤ 299)) →
      ((submitFeature st ev).jobs = st.jobs ∧
       (submitFeature st ev).title = st.title ∧
       (submitFeature st ev).description = st.description ∧
       (submitFeature st ev).loading = false ∧
       (match ev.outcome with
        | .netError msg => (submitFeature st ev).error = some (.str msg)
        | .response _ contentType body =>
          (∀ d, respBodyData contentType body = some d →
            (submitFeature st ev).error = some d) ∧
          (respBodyData contentType body = none →
            (submitFeature st ev).error = some (.str jsonErrMsg)))) := by
  intro st ev
  obtain ⟨outcome, now, nowIso⟩ := ev
  cases outcome with
  | netError msg =>
    intro _
    refine ⟨rfl, rfl, rfl, rfl, rfl⟩
  | response status contentType body =>
    intro hfail
    cases hd : respBodyData contentType body with
    | none =>
      refine ⟨?_, ?_, ?_, ?_, ?_, ?_⟩ <;> simp [submitFeature, hd]
    | some d =>
      refine ⟨?_, ?_, ?_, ?_, ?_, ?_⟩ <;> simp [submitFeature, hd, hfail]

/-- C2 witness: a concrete thrown fetch leaves the empty job list alone
and resets `loading`. -/
theorem claim_C2_witness :
    (submitFeature (initState "b") ⟨.netError "TypeError: Failed to fetch", 0, "t"⟩).jobs
        = (initState "b").jobs ∧
    (submitFeature (initState "b") ⟨.netError "TypeError: Failed to fetch", 0, "t"⟩).loading
        = false :=
  ⟨(claim_C2_amended (initState "b") ⟨.netError "TypeError: Failed to fetch", 0, "t"⟩
      trivial).1,
   (claim_C2_amended (initState "b") ⟨.netError "TypeError: Failed to fetch", 0, "t"⟩
      trivial).2.2.2.1⟩

/-- C3: persisting the job list (the `ac_jobs` effect) and loading it
back (the startup effect) reproduces the same ordered list of jobs. -/
theorem claim_C3 :
    ∀ (st : AppState) (jobs : List JValue),
      (loadJobsEffect (some (persistJobs jobs)) st).jobs = jobs := by
  intro st jobs
  simp only [loadJobsEffect]
  rw [if_neg (persistJobs_ne_empty jobs)]
  unfold persistJobs
  rw [jsonParse_stringify]

/-- The literal statement of claim C4: every persisted `ac_api_base`
value takes precedence over the computed default. -/
def claimC4Prop : Prop :=
  ∀ (s : String) (winGlobal envVar : Lookup),
    initApiBase (.ok (some s)) (getDefaultApiBase winGlobal envVar) = s

/-- C4 counterexample: a persisted empty string is falsy, so
`localStorage.getItem('ac_api_base') || DEFAULT_API_BASE` discards it and
the computed default wins. -/
theorem claim_C4_counterexample : ¬ claimC4Prop := by
  intro h
  have h2 := h "" (.ok none) (.ok none)
  rw [show initApiBase (.ok (some ""))
      (getDefaultApiBase (.ok none) (.ok none)) = "http://localhost:9000" from rfl] at h2
  exact absurd h2 (by decide)

/-- C4 amended: every nonempty persisted `ac_api_base` value takes
precedence over the computed default (host-injected global, environment
value, or hardcoded fallback). -/
theorem claim_C4_amended :
    ∀ (s : String) (winGlobal envVar : Lookup), s ≠ "" →
      initApiBase (.ok (some s)) (getDefaultApiBase winGlobal envVar) = s := by
  intro s winGlobal envVar hs
  simp [initApiBase, hs]

/-- C4 witness: a concrete persisted override wins over a computed
default. -/
theorem claim_C4_witness :
    initApiBase (.ok (some "http://h:9000"))
      (getDefaultApiBase (.ok none) .throws) = "http://h:9000" :=
  claim_C4_amended "http://h:9000" (.ok none) .throws (by decide)

/-- A configuration source that yields nothing: it is absent or its
lookup throws. -/
def absentOrFailing (l : Lookup) : Prop :=
  l = .throws ∨ l = .ok none

/-- C5: with no host-injected global and no environment value — each
source absent or throwing, in any combination — the resolver returns the
fixed default and never fails. -/
theorem claim_C5 :
    ∀ winGlobal envVar : Lookup, absentOrFailing winGlobal → absentOrFailing envVar →
      getDefaultApiBase winGlobal envVar = "http://localhost:9000" := by
  intro winGlobal envVar hg he
  rcases hg with rfl | rfl <;> rcases he with rfl | rfl <;> rfl

/-- C5 witness: one source throwing, the other absent. -/
theorem claim_C5_witness :
    getDefaultApiBase .throws (.ok none) = "http://localhost:9000" :=
  claim_C5 .throws (.ok none) (Or.inl rfl) (Or.inr rfl)

/-- C6: body parsing of a (2xx) submission response, observed through the
response state: a JSON content type routes the body through the JSON
parse; otherwise the body text is parsed as JSON if possible, and a
failed parse yields the wrapper object `{text: <raw body>}`. -/
theorem claim_C6 :
    ∀ (st : AppState) (status : Nat) (contentType : Option String)
      (body : String) (now : Nat) (nowIso : String),
      200 ≤ status → status ≤ 299 →
      (strIncludes (contentType.getD "") "application/json" = true →
        ∀ d, jsonParse body = some d →
          (submitFeature st ⟨.response status contentType body, now, nowIso⟩).response
            = some d) ∧
      (strIncludes (contentType.getD "") "application/json" = false →
        ∀ d, jsonParse body = some d →
          (submitFeature st ⟨.response status contentType body, now, nowIso⟩).response
            = some d) ∧
      (strIncludes (contentType.getD "") "application/json" = false →
        jsonParse body = none →
          (submitFeature st ⟨.response status contentType body, now, nowIso⟩).response
            = some (.obj [("text", .str body)])) := by
  intro st status contentType body now nowIso h1 h2
  refine ⟨?_, ?_, ?_⟩
  · intro hct d hd
    simp [submitFeature, respBodyData, hct, hd, h1, h2]
  · intro hct d hd
    simp [submitFeature, respBodyData, hct, hd, h1, h2]
  · intro hct hd
    simp [submitFeature, respBodyData, hct, hd, h1, h2]

/-- C6 witness: a 200 response with no content-type header and the
non-JSON body `hello` ends up wrapped as `{text: "hello"}`. -/
theorem claim_C6_witness :
    (submitFeature (initState "b") ⟨.response 200 none "hello", 1, "t"⟩).response
      = some (.obj [("text", .str "hello")]) :=
  (claim_C6 (initState "b") 200 none "hello" 1 "t" (by decide) (by decide)).2.2 rfl rfl

/-- C7: the submission endpoint is the base URL with its trailing slash
stripped, concatenated with `/feature_request`; in particular the base
`http://h:9000/` yields `http://h:9000/feature_request`. -/
theorem claim_C7 :
    (∀ base : String, base.data.getLast? = some '/' →
      featureEndpoint base = String.mk base.data.dropLast ++ "/feature_request") ∧
    (∀ base : String, base.data.getLast? ≠ some '/' →
      featureEndpoint base = base ++ "/feature_request") ∧
    featureEndpoint "http://h:9000/" = "http://h:9000/feature_request" := by
  refine ⟨?_, ?_, ?_⟩
  · intro base h
    unfold featureEndpoint stripTrailingSlash
    rw [if_pos h]
  · intro base h
    unfold featureEndpoint stripTrailingSlash
    rw [if_neg h, strMk_data]
  · rfl

/-- C7 witness: a concrete base with a trailing slash. -/
theorem claim_C7_witness :
    featureEndpoint "http://x/" = String.mk ("http://x/".data.dropLast) ++ "/feature_request" :=
  claim_C7.1 "http://x/" rfl

/-- The literal statement of claim C8 (distinctness part): in every job
list reachable by successful submissions, the id fields are pairwise
distinct. -/
def claimC8Prop : Prop :=
  ∀ evs : List SubmitEvent, (∀ e ∈ evs, isSuccessEv e = true) →
    ((submitMany (initState "http://localhost:9000") evs).jobs.map jobId).Nodup

/-- C8 counterexample: two successful submissions in the same
millisecond (`Date.now()` returns 5 twice) create two jobs with id 5, so
the ids are not pairwise distinct. -/
theorem claim_C8_counterexample : ¬ claimC8Prop := by
  intro h
  have h2 := h
    [⟨.response 200 none "{}", 5, "t"⟩, ⟨.response 200 none "{}", 5, "t"⟩]
    (by intro e he; simp at he; subst he; rfl)
  revert h2
  decide

/-- Events whose `Date.now()` values are fresh and strictly increasing:
each is at least the bound, and subsequent ones are strictly larger. -/
def clockedB : Int → List SubmitEvent → Bool
  | _, [] => true
  | b, e :: rest => decide (b ≤ (e.now : Int)) && clockedB ((e.now : Int) + 1) rest

/-- C8 amended: each job's id equals its creation timestamp, and the ids
are pairwise distinct in every job list reachable by successful
submissions whose timestamps are fresh and strictly increasing (from any
starting list with distinct ids below the first timestamp).  Without the
freshness assumption distinctness fails: `Date.now()` can repeat. -/
theorem claim_C8_amended :
    (∀ st ev, isSuccessEv ev = true →
      ∃ data rest,
        (submitFeature st ev).jobs = mkJob ev.now st.title ev.nowIso data :: rest ∧
        jobId (mkJob ev.now st.title ev.nowIso data) = some (ev.now : Int)) ∧
    (∀ st b evs,
      (∀ e ∈ evs, isSuccessEv e = true) →
      (∀ j ∈ st.jobs, ∃ n : Int, jobId j = some n ∧ n < b) →
      (st.jobs.map jobId).Nodup →
      clockedB b evs = true →
      ((submitMany st evs).jobs.map jobId).Nodup) := by
  constructor
  · intro st ev h
    obtain ⟨data, hjobs⟩ := submit_success_jobs st ev h
    refine ⟨data, st.jobs.take 29, ?_, jobId_mkJob _ _ _ _⟩
    rw [hjobs]
    rfl
  · intro st b evs
    induction evs generalizing st b with
    | nil =>
      intro _ _ hnd _
      simpa [submitMany] using hnd
    | cons e evs ih =>
      intro hall hids hnd hclock
      simp only [clockedB, Bool.and_eq_true, decide_eq_true_eq] at hclock
      obtain ⟨hb, hclock'⟩ := hclock
      have hsub : submitMany st (e :: evs) = submitMany (submitFeature st e) evs := by
        simp [submitMany]
      rw [hsub]
      obtain ⟨data, hjobs⟩ := submit_success_jobs st e (hall e (by simp))
      refine ih (submitFeature st e) ((e.now : Int) + 1)
        (fun x hx => hall x (by simp [hx])) ?_ ?_ hclock'
      · intro j hj
        rw [hjobs] at hj
        have hj2 : j ∈ mkJob e.now st.title e.nowIso data :: st.jobs :=
          List.take_subset _ _ hj
        rcases List.mem_cons.mp hj2 with rfl | hj3
        · exact ⟨(e.now : Int), jobId_mkJob _ _ _ _, by omega⟩
        · obtain ⟨n, hn, hlt⟩ := hids j hj3
          exact ⟨n, hn, by omega⟩
      · rw [hjobs, List.map_take]
        refine List.Nodup.sublist (List.take_sublist _ _) ?_
        rw [List.map_cons]
        refine List.nodup_cons.mpr ⟨?_, hnd⟩
        intro hmem
        rw [jobId_mkJob] at hmem
        obtain ⟨j, hj, hjid⟩ := List.mem_map.mp hmem
        obtain ⟨n, hn, hlt⟩ := hids j hj
        rw [hn] at hjid
        have : n = (e.now : Int) := by
          injection hjid
        omega

/-- C8 witness: two successful submissions at strictly increasing
timestamps 1 and 2 from the fresh state leave pairwise distinct ids. -/
theorem claim_C8_witness :
    ((submitMany (initState "b")
      [⟨.response 200 none "{}", 1, "t"⟩, ⟨.response 200 none "{}", 2, "t"⟩]).jobs.map
        jobId).Nodup :=
  claim_C8_amended.2 (initState "b") 0
    [⟨.response 200 none "{}", 1, "t"⟩, ⟨.response 200 none "{}", 2, "t"⟩]
    (by intro e he; simp at he; rcases he with rfl | rfl <;> rfl)
    (by intro j hj; simp [initState] at hj)
    (by simp [initState])
    (by decide)

/-- C9: the startup load replaces the in-memory job list with exactly
the JSON array parsed from the `ac_jobs` key — no truncation and no
shape validation; in particular some stored array of more than 30
entries loads as more than 30 in-memory entries. -/
theorem claim_C9 :
    (∀ (st : AppState) (s : String) (l : List JValue),
      jsonParse s = some (.arr l) → (loadJobsEffect (some s) st).jobs = l) ∧
    (∃ (s : String) (l : List JValue),
      (loadJobsEffect (some s) (initState "b")).jobs = l ∧ 30 < l.length) := by
  have part1 : ∀ (st : AppState) (s : String) (l : List JValue),
      jsonParse s = some (.arr l) → (loadJobsEffect (some s) st).jobs = l := by
    intro st s l h
    simp only [loadJobsEffect]
    by_cases hs : s = ""
    · subst hs
      rw [show jsonParse "" = none from rfl] at h
      exact Option.noConfusion h
    · rw [if_neg hs, h]
  refine ⟨part1, persistJobs (List.map (fun (n : Nat) => JValue.num n) (List.range 31)),
    List.map (fun (n : Nat) => JValue.num n) (List.range 31), ?_,
    by rw [List.length_map, List.length_range]; omega⟩
  refine part1 (initState "b") _ _ ?_
  unfold persistJobs
  exact jsonParse_stringify _

/-- C9 witness: the stored array `[]` loads as the empty job list. -/
theorem claim_C9_witness :
    (loadJobsEffect (some "[]") (initState "b")).jobs = ([] : List JValue) :=
  claim_C9.1 (initState "b") "[]" [] rfl

/-- C10: the Clear action resets title, description, response and error
to their initial empty/null values and leaves the job list, `apiBase`,
`apiBaseInput`, `apiToken` and the loading flag unchanged. -/
theorem claim_C10 :
    ∀ st : AppState,
      (clearAction st).title = "" ∧ (clearAction st).description = "" ∧
      (clearAction st).response = none ∧ (clearAction st).error = none ∧
      (clearAction st).jobs = st.jobs ∧ (clearAction st).apiBase = st.apiBase ∧
      (clearAction st).apiBaseInput = st.apiBaseInput ∧
      (clearAction st).apiToken = st.apiToken ∧
      (clearAction st).loading = st.loading := by
  intro st
  exact ⟨rfl, rfl, rfl, rfl, rfl, rfl, rfl, rfl, rfl⟩

end AutoCoder
